import Mathlib

set_option maxHeartbeats 1000000

namespace Audec

/-!
Shallow embedding of the `audec` crate (src/lib.rs and src/parallel.rs).

Bytes are modelled as `Nat`, byte buffers as `List Nat`, and `std::io::Error`
values as an abstract error type `ε` (instantiated with `Nat` in concrete
statements).  A fallible operation returns `Except ε _`; a Rust panic
(`unwrap()` on an `Err`) is modelled as `none` in an `Option` result.

The external codec crates (bzip2, flate2, lz4, lz4_flex, zstd) are collaborators
outside this repository; they enter the model only through the shapes of their
constructors as they appear in src/lib.rs: `BzDecoder::new` and
`GzDecoder::new` and `FrameDecoder::new` are infallible, while
`lz4::Decoder::new` and `zstd::stream::Decoder::new` return a `Result` that
`decompress_as` unwraps.  A decoder that has been constructed is modelled by
the trace of outcomes of its successive `fill_buf` calls.
-/

/-- Compression format, from `CompressionFormat` in src/lib.rs. -/
inductive CompressionFormat where
  | Deflate
  | Bzip2
  | Lz4
  | Zstd
deriving DecidableEq, Repr

deriving instance DecidableEq for Except

/-- The magic-byte match of `guess_compression_format` (src/lib.rs):
the Rust slice patterns `[b'B', b'Z', b'h', ..]`, `[0x1f, 0x8b, ..]`,
`[0x04, 0x22, 0x4d, 0x18, ..]`, `[0x28, 0xb5, 0x2f, 0xfd, ..]`, in source
order (`b'B' = 0x42`, `b'Z' = 0x5a`, `b'h' = 0x68`). -/
def matchMagic : List Nat → Option CompressionFormat
  | 0x42 :: 0x5a :: 0x68 :: _ => some .Bzip2
  | 0x1f :: 0x8b :: _ => some .Deflate
  | 0x04 :: 0x22 :: 0x4d :: 0x18 :: _ => some .Lz4
  | 0x28 :: 0xb5 :: 0x2f :: 0xfd :: _ => some .Zstd
  | _ => none

/-- `guess_compression_format` (src/lib.rs): the argument is the result of
`r.fill_buf()`; on an I/O error (`let Ok(bytes) = r.fill_buf() else return
None`) the guess is `none`, otherwise the buffered bytes are matched against
the magic table. -/
def guess_compression_format {ε : Type} (r : Except ε (List Nat)) :
    Option CompressionFormat :=
  match r with
  | .error _ => none
  | .ok bytes => matchMagic bytes

/-- `l` begins with the byte pattern `p` (the meaning of a Rust slice pattern
`[p₀, …, pₖ, ..]` matching `l`). -/
def beginsWith (p l : List Nat) : Prop := ∃ t, l = p ++ t

/-- Magic signature of bzip2 (`BZh`). -/
def magicBz : List Nat := [0x42, 0x5a, 0x68]

/-- Magic signature of deflate/gzip. -/
def magicGz : List Nat := [0x1f, 0x8b]

/-- Magic signature of the lz4 frame format. -/
def magicLz4 : List Nat := [0x04, 0x22, 0x4d, 0x18]

/-- Magic signature of zstd. -/
def magicZstd : List Nat := [0x28, 0xb5, 0x2f, 0xfd]

/-- An in-memory `BufRead` source, as handed to `auto_decompress`: `buffered`
is the current internal buffer of the `BufReader`, `incs` are the byte
increments the underlying reader will deliver on successive inner reads (a
file or socket may deliver the stream in arbitrarily sized pieces). -/
structure BufSource where
  buffered : List Nat
  incs : List (List Nat)
deriving DecidableEq, Repr

/-- `BufRead::fill_buf` on a `BufSource`: if the internal buffer is nonempty
it is returned unchanged; otherwise one increment is pulled from the
underlying reader into the buffer (an empty result means end of stream).
Such a source never reports an I/O error. -/
def fill_buf (s : BufSource) : List Nat × BufSource :=
  if s.buffered = [] then
    match s.incs with
    | [] => ([], s)
    | i :: r => (i, ⟨i, r⟩)
  else (s.buffered, s)

/-- The bytes produced by draining the underlying increments with repeated
`fill_buf`/`consume` rounds; a zero-length fill (exhausted reader, or a
zero-length inner read) ends the stream. -/
def drainIncs : List (List Nat) → List Nat
  | [] => []
  | i :: r => if i = [] then [] else i ++ drainIncs r

/-- `Read::read_to_end` on a `BufSource`: drain the internal buffer, then the
underlying increments, until a zero-length fill. -/
def readToEnd (s : BufSource) : List Nat := s.buffered ++ drainIncs s.incs

/-- `guess_compression_format` applied to a `BufSource`: one `fill_buf` call
(which may pull the first increment into the buffer but consumes nothing),
then the magic-table match on the returned bytes.  The second component is
the state of the source after sniffing. -/
def guessFmt (s : BufSource) : Option CompressionFormat × BufSource :=
  (guess_compression_format (Except.ok (fill_buf s).1 : Except Unit (List Nat)),
   (fill_buf s).2)

/-- The crate's cargo features that gate the `decompress_as` match arms
(src/lib.rs): each backend can be compiled in or out; `zlib-ng` is modelled
through `flate2`, which it enables. -/
structure Features where
  bzip2 : Bool
  flate2 : Bool
  lz4 : Bool
  lz4_flex : Bool
  zstd : Bool
deriving DecidableEq, Repr

/-- The `compile_error!` in src/lib.rs: features `lz4` and `lz4_flex` cannot
both be enabled. -/
def Features.valid (ft : Features) : Prop := ¬(ft.lz4 = true ∧ ft.lz4_flex = true)

/-- The external codec constructors exactly as they are used in
`decompress_as` (src/lib.rs): over sources `α` producing adapters `β`.
`BzDecoder::new`, `GzDecoder::new` and `lz4_flex::frame::FrameDecoder::new`
are infallible; `lz4::Decoder::new` and `zstd::stream::Decoder::new` return a
`Result` (which `decompress_as` unwraps). -/
structure Codecs (α β : Type) where
  bzNew : α → β
  gzNew : α → β
  lz4New : α → Except Nat β
  lz4FlexNew : α → β
  zstdNew : α → Except Nat β

/-- `decompress_as` (src/lib.rs): per-format dispatch with the `cfg` feature
gates; `Sum.inl` is the passthrough arm (`_ => Box::new(r)`), `Sum.inr` a
codec adapter.  The result `none` models a panic: the `.unwrap()` on the
`lz4::Decoder::new` and `zstd::stream::Decoder::new` results aborts when the
external constructor fails. -/
def decompress_as {α β : Type} (ft : Features) (c : Codecs α β) (r : α) :
    CompressionFormat → Option (α ⊕ β)
  | .Bzip2 =>
      if ft.bzip2 then some (Sum.inr (c.bzNew r)) else some (Sum.inl r)
  | .Deflate =>
      if ft.flate2 then some (Sum.inr (c.gzNew r)) else some (Sum.inl r)
  | .Lz4 =>
      if ft.lz4 then ((c.lz4New r).toOption.map Sum.inr)
      else if ft.lz4_flex then some (Sum.inr (c.lz4FlexNew r))
      else some (Sum.inl r)
  | .Zstd =>
      if ft.zstd then ((c.zstdNew r).toOption.map Sum.inr)
      else some (Sum.inl r)

/-- `auto_decompress` (src/lib.rs): sniff once; if the magic bytes are not
recognized, return the (sniffed) source itself, otherwise dispatch on the
guessed format. -/
def auto_decompress {β : Type} (ft : Features) (c : Codecs BufSource β)
    (s : BufSource) : Option (BufSource ⊕ β) :=
  match guessFmt s with
  | (none, s') => some (Sum.inl s')
  | (some f, s') => decompress_as ft c s' f

/-- Feature set with the `lz4` backend enabled (and `lz4_flex` disabled), as
in a build with `--features lz4`. -/
def ftLz4 : Features :=
  { bzip2 := true, flate2 := true, lz4 := true, lz4_flex := false, zstd := true }

/-- A codec environment in which the external `lz4::Decoder::new` constructor
fails (as it does on a malformed lz4 frame header, which it reads eagerly);
all other constructors succeed. -/
def badCodecs : Codecs Unit Unit :=
  { bzNew := fun _ => (), gzNew := fun _ => (),
    lz4New := fun _ => Except.error 0, lz4FlexNew := fun _ => (),
    zstdNew := fun _ => Except.ok () }

/-- Feature set of a build with the default backends plus bzip2 and the
`lz4_flex` lz4 backend (no fallible-at-dispatch lz4 backend). -/
def allFeatures : Features :=
  { bzip2 := true, flate2 := true, lz4 := false, lz4_flex := true, zstd := true }

/-- A codec environment over `BufSource` sources whose adapters carry no
information, with every fallible constructor succeeding. -/
def unitCodecs : Codecs BufSource Unit :=
  { bzNew := fun _ => (), gzNew := fun _ => (),
    lz4New := fun _ => Except.ok (), lz4FlexNew := fun _ => (),
    zstdNew := fun _ => Except.ok () }

/-- Consumer side of the parallel bridge, `ParDecompressor` in
src/parallel.rs.  The `Receiver` is modelled by the list of messages still
to be received, in order; an exhausted list plays the role of a closed
channel (worker exited and queue drained), on which `recv()` fails. -/
structure ParDecompressor (ε : Type) where
  r_decompressed : List (Except ε (List Nat))
  buf : List Nat
  pos : Nat
deriving DecidableEq, Repr

/-- One call to `ParDecompressor::read` (src/parallel.rs) with a destination
buffer of length `n`: if the re-assembly buffer is exhausted, receive the
next message — a closed channel yields `Ok(0)`, an error message is returned
by `self.buf = buf?` (leaving `buf` and `pos` untouched), a chunk replaces
the buffer with the cursor reset; then copy
`min(n, self.buf.len() - self.pos)` bytes out and advance the cursor. -/
def read {ε : Type} (st : ParDecompressor ε) (n : Nat) :
    Except ε (List Nat) × ParDecompressor ε :=
  if st.buf.length ≤ st.pos then
    match st.r_decompressed with
    | [] => (Except.ok [], st)
    | Except.error e :: rest => (Except.error e, ⟨rest, st.buf, st.pos⟩)
    | Except.ok chunk :: rest =>
        (Except.ok (chunk.take (min n chunk.length)),
         ⟨rest, chunk, min n chunk.length⟩)
  else
    (Except.ok ((st.buf.drop st.pos).take (min n (st.buf.length - st.pos))),
     ⟨st.r_decompressed, st.buf, st.pos + min n (st.buf.length - st.pos)⟩)

/-- Reading a `ParDecompressor` to completion with destination buffers of
length `n`: repeated `read` calls, concatenating the returned bytes, until a
zero-length read (end of stream).  `fuel` bounds the number of calls; `none`
means the fuel ran out or an error was returned. -/
def readAll {ε : Type} : Nat → Nat → ParDecompressor ε → Option (List Nat)
  | 0, _, _ => none
  | fuel + 1, n, st =>
      match read st n with
      | (Except.error _, _) => none
      | (Except.ok bytes, st') =>
          if bytes = [] then some []
          else (readAll fuel n st').map (fun t => bytes ++ t)

/-- The worker loop spawned by `ParDecompressor::new` (src/parallel.rs), for
a connected consumer (every send succeeds): the decoder is modelled by the
trace of its `fill_buf` outcomes; an exhausted trace stands for a decoder
that reports end of stream.  The result is the sequence of messages the
worker sends, in order.  Note the loop's structure: an empty fill breaks the
loop, a nonempty fill sends the chunk, and an `Err` fill sends the error
*and continues the loop*. -/
def workerRun {ε : Type} : List (Except ε (List Nat)) → List (Except ε (List Nat))
  | [] => []
  | Except.ok c :: rest => if c = [] then [] else Except.ok c :: workerRun rest
  | Except.error e :: rest => Except.error e :: workerRun rest

/-- The worker loop when the consumer disconnects after `k` messages have
been received/accepted: sends `0, …, k-1` succeed and send `k` fails
(`mpsc` sends fail exactly when the receiver has been dropped).  Returns the
messages actually delivered and the number of `fill_buf` calls the worker
performed before exiting. -/
def workerDisc {ε : Type} : Nat → List (Except ε (List Nat)) →
    List (Except ε (List Nat)) × Nat
  | _, [] => ([], 1)
  | k, Except.ok c :: rest =>
      if c = [] then ([], 1)
      else
        match k with
        | 0 => ([], 1)
        | k + 1 =>
            ((Except.ok c :: (workerDisc k rest).1), (workerDisc k rest).2 + 1)
  | k, Except.error e :: rest =>
      match k with
      | 0 => ([], 1)
      | k + 1 =>
          ((Except.error e :: (workerDisc k rest).1), (workerDisc k rest).2 + 1)

/-- Number of `fill_buf` calls the worker performs on a given decoder trace
when every send succeeds (the run ends at the first empty fill, or at the
fill that finds the trace exhausted). -/
def fillCount {ε : Type} : List (Except ε (List Nat)) → Nat
  | [] => 1
  | Except.ok c :: rest => if c = [] then 1 else fillCount rest + 1
  | Except.error _ :: rest => fillCount rest + 1

/-- Reading the synchronous path (`decompress_as` adapter) to completion:
`read_to_end` over the decoder's `fill_buf` trace concatenates the chunks
until an empty fill (end of stream) or an error, which it returns. -/
def syncReadToEnd {ε : Type} : List (Except ε (List Nat)) → Except ε (List Nat)
  | [] => Except.ok []
  | Except.ok c :: rest =>
      if c = [] then Except.ok []
      else (syncReadToEnd rest).map (fun t => c ++ t)
  | Except.error e :: _ => Except.error e

/-- The payload of a channel message (empty for an error message). -/
def msgChunk {ε : Type} : Except ε (List Nat) → List Nat
  | Except.ok c => c
  | Except.error _ => []

/-- Total number of chunk bytes buffered in a message list. -/
def chanBytes {ε : Type} (msgs : List (Except ε (List Nat))) : Nat :=
  (msgs.map (fun m => (msgChunk m).length)).sum

/-- Concatenation of the chunk payloads of a message list, in order. -/
def chanFlat {ε : Type} (msgs : List (Except ε (List Nat))) : List Nat :=
  (msgs.map msgChunk).flatten

/-- Total byte count of a list of chunks. -/
def totalLen (chunks : List (List Nat)) : Nat := (chunks.map List.length).sum

/-- A message list consisting only of nonempty chunks (what the worker sends
on an error-free run: it never sends an empty chunk). -/
def MsgsOk {ε : Type} (msgs : List (Except ε (List Nat))) : Prop :=
  ∀ m ∈ msgs, ∃ c, m = Except.ok c ∧ c ≠ []

/-- Global state of the producer/consumer pipeline built by
`ParDecompressor::new` (src/parallel.rs): the worker's remaining decoder
trace, the messages buffered in the `mpsc` channel (FIFO), whether the worker
has exited (sender dropped), and the consumer's re-assembly buffer and
cursor. -/
structure PipeState (ε : Type) where
  trace : List (Except ε (List Nat))
  chan : List (Except ε (List Nat))
  closed : Bool
  cbuf : List Nat
  cpos : Nat
deriving DecidableEq, Repr

/-- Interleaving semantics of the pipeline.  Worker steps follow the loop in
`ParDecompressor::new`: a nonempty fill sends its chunk into the channel
(`std::sync::mpsc::channel()` is unbounded, so a send is always enabled, no
matter how many messages are already buffered), an error fill sends the
error and continues, an empty fill or exhausted trace makes the worker exit.
Consumer steps follow `ParDecompressor::read`. -/
inductive PipeStep {ε : Type} : PipeState ε → PipeState ε → Prop
  | sendChunk (c : List Nat) (t ch : List (Except ε (List Nat)))
      (b : List Nat) (p : Nat) (h : c ≠ []) :
      PipeStep ⟨Except.ok c :: t, ch, false, b, p⟩
        ⟨t, ch ++ [Except.ok c], false, b, p⟩
  | sendErr (e : ε) (t ch : List (Except ε (List Nat))) (b : List Nat) (p : Nat) :
      PipeStep ⟨Except.error e :: t, ch, false, b, p⟩
        ⟨t, ch ++ [Except.error e], false, b, p⟩
  | eofExit (t ch : List (Except ε (List Nat))) (b : List Nat) (p : Nat) :
      PipeStep ⟨Except.ok [] :: t, ch, false, b, p⟩ ⟨[], ch, true, b, p⟩
  | drainExit (ch : List (Except ε (List Nat))) (b : List Nat) (p : Nat) :
      PipeStep ⟨[], ch, false, b, p⟩ ⟨[], ch, true, b, p⟩
  | recvChunk (c : List Nat) (t ch : List (Except ε (List Nat)))
      (cl : Bool) (b : List Nat) (p : Nat) (h : b.length ≤ p) :
      PipeStep ⟨t, Except.ok c :: ch, cl, b, p⟩ ⟨t, ch, cl, c, 0⟩
  | recvErr (e : ε) (t ch : List (Except ε (List Nat)))
      (cl : Bool) (b : List Nat) (p : Nat) (h : b.length ≤ p) :
      PipeStep ⟨t, Except.error e :: ch, cl, b, p⟩ ⟨t, ch, cl, b, p⟩
  | copyOut (n : Nat) (t ch : List (Except ε (List Nat)))
      (cl : Bool) (b : List Nat) (p : Nat) (h : p < b.length) :
      PipeStep ⟨t, ch, cl, b, p⟩ ⟨t, ch, cl, b, p + min n (b.length - p)⟩

/-- Initial pipeline state: the worker owns the whole decoder trace, the
channel is empty, the consumer's buffer is empty. -/
def initPipe {ε : Type} (t : List (Except ε (List Nat))) : PipeState ε :=
  ⟨t, [], false, [], 0⟩

/-- Reachability of pipeline states. -/
def PipeReach {ε : Type} (a b : PipeState ε) : Prop :=
  Relation.ReflTransGen PipeStep a b

theorem beginsWith_append (p l t : List Nat) (h : beginsWith p l) :
    beginsWith p (l ++ t) := by
  obtain ⟨u, hu⟩ := h
  exact ⟨u ++ t, by simp [hu]⟩

theorem matchMagic_bz_iff (l : List Nat) :
    matchMagic l = some CompressionFormat.Bzip2 ↔ beginsWith magicBz l := by
  rw [matchMagic.eq_def]
  split <;> simp_all [beginsWith, magicBz]

theorem matchMagic_gz_iff (l : List Nat) :
    matchMagic l = some CompressionFormat.Deflate ↔ beginsWith magicGz l := by
  rw [matchMagic.eq_def]
  split <;> simp_all [beginsWith, magicGz]

theorem matchMagic_lz4_iff (l : List Nat) :
    matchMagic l = some CompressionFormat.Lz4 ↔ beginsWith magicLz4 l := by
  rw [matchMagic.eq_def]
  split <;> simp_all [beginsWith, magicLz4]

theorem matchMagic_zstd_iff (l : List Nat) :
    matchMagic l = some CompressionFormat.Zstd ↔ beginsWith magicZstd l := by
  rw [matchMagic.eq_def]
  split <;> simp_all [beginsWith, magicZstd]

theorem matchMagic_none_iff (l : List Nat) :
    matchMagic l = none ↔
      ¬beginsWith magicBz l ∧ ¬beginsWith magicGz l ∧
      ¬beginsWith magicLz4 l ∧ ¬beginsWith magicZstd l := by
  rw [matchMagic.eq_def]
  split <;> simp_all [beginsWith, magicBz, magicGz, magicLz4, magicZstd]

/-- Claim C6: `guess_compression_format` implements exactly the fixed magic
table: it returns `Bzip2` iff the buffered bytes begin with `42 5A 68`,
`Deflate` iff they begin with `1F 8B`, `Lz4` iff they begin with
`04 22 4D 18`, `Zstd` iff they begin with `28 B5 2F FD`, and reports `none`
in every other case, including when the peek itself fails. -/
theorem guess_format_magic_table (l : List Nat) (e : Nat) :
    (guess_compression_format (Except.ok l : Except Nat (List Nat)) =
        some CompressionFormat.Bzip2 ↔ beginsWith magicBz l)
  ∧ (guess_compression_format (Except.ok l : Except Nat (List Nat)) =
        some CompressionFormat.Deflate ↔ beginsWith magicGz l)
  ∧ (guess_compression_format (Except.ok l : Except Nat (List Nat)) =
        some CompressionFormat.Lz4 ↔ beginsWith magicLz4 l)
  ∧ (guess_compression_format (Except.ok l : Except Nat (List Nat)) =
        some CompressionFormat.Zstd ↔ beginsWith magicZstd l)
  ∧ (guess_compression_format (Except.ok l : Except Nat (List Nat)) = none ↔
      ¬beginsWith magicBz l ∧ ¬beginsWith magicGz l ∧
      ¬beginsWith magicLz4 l ∧ ¬beginsWith magicZstd l)
  ∧ guess_compression_format (Except.error e : Except Nat (List Nat)) = none :=
  ⟨matchMagic_bz_iff l, matchMagic_gz_iff l, matchMagic_lz4_iff l,
   matchMagic_zstd_iff l, matchMagic_none_iff l, rfl⟩

theorem frag_of_begins (p sig : List Nat) (h : beginsWith p sig) :
    p = sig.take p.length ∧ p.length ≤ sig.length := by
  obtain ⟨t, ht⟩ := h
  constructor
  · rw [ht]
    exact (List.take_left p t).symm
  · have := congrArg List.length ht
    simp at this
    omega

/-- Claim C10: every nonempty strict fragment of one of the four magic
signatures is classified as unknown by `guess_compression_format`. -/
theorem short_magic_fragment_unknown (p : List Nat) (hne : p ≠ [])
    (h : (beginsWith p magicBz ∧ p ≠ magicBz) ∨
         (beginsWith p magicGz ∧ p ≠ magicGz) ∨
         (beginsWith p magicLz4 ∧ p ≠ magicLz4) ∨
         (beginsWith p magicZstd ∧ p ≠ magicZstd)) :
    guess_compression_format (Except.ok p : Except Nat (List Nat)) = none := by
  have hlen0 : p.length ≠ 0 := by
    simpa [List.length_eq_zero] using hne
  rcases h with ⟨hb, hs⟩ | ⟨hb, hs⟩ | ⟨hb, hs⟩ | ⟨hb, hs⟩ <;>
    obtain ⟨hp, hl⟩ := frag_of_begins _ _ hb
  · have hl3 : p.length ≠ 3 := by
      intro h3
      exact hs (by simpa [magicBz, h3] using hp)
    have : p.length = 1 ∨ p.length = 2 := by
      simp [magicBz] at hl; omega
    rcases this with h1 | h1 <;> simp [magicBz, h1] at hp <;> subst hp <;> decide
  · have hl2 : p.length ≠ 2 := by
      intro h2
      exact hs (by simpa [magicGz, h2] using hp)
    have h1 : p.length = 1 := by
      simp [magicGz] at hl; omega
    simp [magicGz, h1] at hp
    subst hp
    decide
  · have hl4 : p.length ≠ 4 := by
      intro h4
      exact hs (by simpa [magicLz4, h4] using hp)
    have : p.length = 1 ∨ p.length = 2 ∨ p.length = 3 := by
      simp [magicLz4] at hl; omega
    rcases this with h1 | h1 | h1 <;> simp [magicLz4, h1] at hp <;> subst hp <;> decide
  · have hl4 : p.length ≠ 4 := by
      intro h4
      exact hs (by simpa [magicZstd, h4] using hp)
    have : p.length = 1 ∨ p.length = 2 ∨ p.length = 3 := by
      simp [magicZstd] at hl; omega
    rcases this with h1 | h1 | h1 <;> simp [magicZstd, h1] at hp <;> subst hp <;> decide

theorem short_magic_fragment_unknown_witness :
    (([0x1f] : List Nat) ≠ [] ∧ beginsWith [0x1f] magicGz ∧ [0x1f] ≠ magicGz)
    ∧ guess_compression_format (Except.ok [0x1f] : Except Nat (List Nat)) = none :=
  ⟨⟨by decide, ⟨[0x8b], rfl⟩, by decide⟩,
   short_magic_fragment_unknown [0x1f] (by decide)
     (Or.inr (Or.inl ⟨⟨[0x8b], rfl⟩, by decide⟩))⟩

theorem drainIncs_eq_flatten (incs : List (List Nat)) (h : ∀ i ∈ incs, i ≠ []) :
    drainIncs incs = incs.flatten := by
  induction incs with
  | nil => rfl
  | cons i r ih =>
      have hi : i ≠ [] := h i (by simp)
      simp [drainIncs, hi, ih fun j hj => h j (by simp [hj])]

/-- Claim C7: sniffing is side-effect-free on the source's read position:
`guess_compression_format` consumes nothing (its single `fill_buf` may pull
bytes into the internal buffer but never advances past them), so reading the
source to completion after sniffing yields exactly the bytes a fresh
unsniffed read would yield.  The hypothesis states that the underlying
reader delivers no spurious zero-length increments before the end of the
stream. -/
theorem sniff_preserves_stream (s : BufSource) (h : ∀ i ∈ s.incs, i ≠ []) :
    readToEnd (guessFmt s).2 = readToEnd s := by
  rcases s with ⟨b, incs⟩
  by_cases hb : b = []
  · subst hb
    cases incs with
    | nil => rfl
    | cons i r =>
        have hi : i ≠ [] := h i (by simp)
        simp [guessFmt, fill_buf, readToEnd, drainIncs, hi]
  · simp [guessFmt, fill_buf, hb]

theorem sniff_preserves_stream_witness :
    (∀ i ∈ ([[0x1f], [0x8b, 9]] : List (List Nat)), i ≠ [])
    ∧ readToEnd (guessFmt ⟨[], [[0x1f], [0x8b, 9]]⟩).2 =
        readToEnd ⟨[], [[0x1f], [0x8b, 9]]⟩ :=
  ⟨by decide, sniff_preserves_stream ⟨[], [[0x1f], [0x8b, 9]]⟩ (by decide)⟩

/-- Claim C5: on any input whose bytes do not begin with one of the four
magic signatures — the empty input included — `auto_decompress` returns the
source itself (passthrough, `Sum.inl`), never fails, and reading that result
to completion reproduces the input byte-for-byte, in order. -/
theorem auto_decompress_passthrough_roundtrip {β : Type} (ft : Features)
    (c : Codecs BufSource β) (incs : List (List Nat))
    (hne : ∀ i ∈ incs, i ≠ [])
    (h1 : ¬beginsWith magicBz incs.flatten)
    (h2 : ¬beginsWith magicGz incs.flatten)
    (h3 : ¬beginsWith magicLz4 incs.flatten)
    (h4 : ¬beginsWith magicZstd incs.flatten) :
    ∃ s' : BufSource, auto_decompress ft c ⟨[], incs⟩ = some (Sum.inl s')
      ∧ readToEnd s' = incs.flatten := by
  cases incs with
  | nil =>
      refine ⟨⟨[], []⟩, ?_, rfl⟩
      rfl
  | cons i r =>
      have hi : i ≠ [] := hne i (by simp)
      have hnone : matchMagic i = none := by
        rw [matchMagic_none_iff]
        refine ⟨fun hb => ?_, fun hb => ?_, fun hb => ?_, fun hb => ?_⟩
        · exact h1 (by simpa using beginsWith_append _ _ r.flatten hb)
        · exact h2 (by simpa using beginsWith_append _ _ r.flatten hb)
        · exact h3 (by simpa using beginsWith_append _ _ r.flatten hb)
        · exact h4 (by simpa using beginsWith_append _ _ r.flatten hb)
      refine ⟨⟨i, r⟩, ?_, ?_⟩
      · simp [auto_decompress, guessFmt, fill_buf, guess_compression_format, hnone]
      · have hr : drainIncs r = r.flatten :=
          drainIncs_eq_flatten r fun j hj => hne j (by simp [hj])
        simp [readToEnd, hr]

theorem auto_decompress_passthrough_roundtrip_witness :
    (¬beginsWith magicBz (([] : List (List Nat)).flatten))
    ∧ (∃ s' : BufSource,
        auto_decompress allFeatures unitCodecs ⟨[], []⟩ = some (Sum.inl s')
        ∧ readToEnd s' = ([] : List (List Nat)).flatten) := by
  constructor
  · rintro ⟨t, ht⟩
    simp [magicBz] at ht
  · exact auto_decompress_passthrough_roundtrip allFeatures unitCodecs []
      (by simp)
      (by rintro ⟨t, ht⟩; simp [magicBz] at ht)
      (by rintro ⟨t, ht⟩; simp [magicGz] at ht)
      (by rintro ⟨t, ht⟩; simp [magicLz4] at ht)
      (by rintro ⟨t, ht⟩; simp [magicZstd] at ht)

/-- Claim C2 counterexample: with the `lz4` backend compiled in and the
external `lz4::Decoder::new` constructor failing on this source (that
constructor reads the frame header eagerly and reports a malformed one as an
`Err`), `decompress_as` aborts at dispatch time: the `.unwrap()` in the
`Lz4` arm panics, modelled as `none` — construction is not deferred to the
first read. -/
theorem dispatch_can_abort :
    decompress_as ftLz4 badCodecs () CompressionFormat.Lz4 = none := by decide

/-- Claim C2 amended: dispatch never fails for `Bzip2`, for `Deflate`, or
for a format whose backend is not compiled in (passthrough); for `Lz4` with
the `lz4` backend and for `Zstd`, `decompress_as` unwraps the external
constructor's `Result`: it succeeds whenever the constructor succeeds and
aborts (panics) exactly when the constructor fails at dispatch time. -/
theorem dispatch_abort_only_on_unwrap {α β : Type} (ft : Features)
    (c : Codecs α β) (r : α) :
    (decompress_as ft c r CompressionFormat.Bzip2).isSome = true
  ∧ (decompress_as ft c r CompressionFormat.Deflate).isSome = true
  ∧ (ft.lz4 = false → (decompress_as ft c r CompressionFormat.Lz4).isSome = true)
  ∧ (∀ a, c.lz4New r = Except.ok a →
      (decompress_as ft c r CompressionFormat.Lz4).isSome = true)
  ∧ (ft.zstd = false → (decompress_as ft c r CompressionFormat.Zstd).isSome = true)
  ∧ (∀ a, c.zstdNew r = Except.ok a →
      (decompress_as ft c r CompressionFormat.Zstd).isSome = true)
  ∧ (∀ e, ft.lz4 = true → c.lz4New r = Except.error e →
      decompress_as ft c r CompressionFormat.Lz4 = none)
  ∧ (∀ e, ft.zstd = true → c.zstdNew r = Except.error e →
      decompress_as ft c r CompressionFormat.Zstd = none) := by
  refine ⟨?_, ?_, ?_, ?_, ?_, ?_, ?_, ?_⟩
  · by_cases hb : ft.bzip2 <;> simp [decompress_as, hb]
  · by_cases hb : ft.flate2 <;> simp [decompress_as, hb]
  · intro h
    by_cases hb : ft.lz4_flex <;> simp [decompress_as, h, hb]
  · intro a ha
    by_cases hb : ft.lz4 <;> by_cases hb2 : ft.lz4_flex <;>
      simp [decompress_as, hb, hb2, ha, Except.toOption]
  · intro h
    simp [decompress_as, h]
  · intro a ha
    by_cases hb : ft.zstd <;> simp [decompress_as, hb, ha, Except.toOption]
  · intro e h he
    simp [decompress_as, h, he, Except.toOption]
  · intro e h he
    simp [decompress_as, h, he, Except.toOption]

theorem dispatch_abort_only_on_unwrap_witness :
    (decompress_as ftLz4 badCodecs () CompressionFormat.Bzip2).isSome = true
    ∧ (ftLz4.lz4 = true ∧ badCodecs.lz4New () = Except.error 0)
    ∧ decompress_as ftLz4 badCodecs () CompressionFormat.Lz4 = none := by
  have h := dispatch_abort_only_on_unwrap ftLz4 badCodecs ()
  exact ⟨h.1, ⟨rfl, rfl⟩, h.2.2.2.2.2.2.1 0 rfl rfl⟩

/-- Claim C3 counterexample: on a decoder whose first fill reports an I/O
error and whose second fill yields the chunk `[5]`, the worker sends the
error and then keeps running: it performs another fill and sends a further
message after the error, instead of exiting after exactly one send. -/
theorem worker_continues_after_error :
    workerRun [Except.error (7 : Nat), Except.ok [5]] =
      [Except.error 7, Except.ok [5]]
    ∧ workerRun [Except.error (7 : Nat), Except.ok [5]] ≠ [Except.error 7] := by
  decide

/-- Claim C3 amended: whenever a fill of the decoder reports an I/O error,
the worker sends that error into the channel once for that fill and then
*continues the loop with a further fill* — it exits only on a clean
end-of-stream fill (or on a failed send), so fills and sends may continue
after an error. -/
theorem worker_error_not_terminal (e : Nat) (rest : List (Except Nat (List Nat))) :
    workerRun (Except.error e :: rest) = Except.error e :: workerRun rest
    ∧ workerRun (Except.ok [] :: rest) = [] := by
  constructor <;> simp [workerRun]

/-- Claim C4 counterexample: with the messages `[Err 7, Ok [5]]` pending, the
first `read` call surfaces the error, but the stream is not terminally
failed: the next `read` call performs another channel receive and returns
the byte `5`. -/
theorem read_after_error_receives_data :
    read (⟨[Except.error 7, Except.ok [5]], [], 0⟩ : ParDecompressor Nat) 1 =
      (Except.error 7, ⟨[Except.ok [5]], [], 0⟩)
    ∧ read (⟨[Except.ok [5]], [], 0⟩ : ParDecompressor Nat) 1 =
      (Except.ok [5], ⟨[], [5], 1⟩) := by
  decide

/-- Claim C4 amended: an error value received from the channel is returned
to the caller verbatim, but no terminal-failure state is recorded: the
re-assembly buffer and cursor are left unchanged (still exhausted) and only
the error message is removed from the channel, so the very next `read` call
performs another channel receive and can return further data. -/
theorem read_error_verbatim_no_latch (e : Nat)
    (rest : List (Except Nat (List Nat))) (b : List Nat) (p n : Nat)
    (h : b.length ≤ p) :
    read (⟨Except.error e :: rest, b, p⟩ : ParDecompressor Nat) n =
      (Except.error e, ⟨rest, b, p⟩) := by
  simp [read, h]

theorem read_error_verbatim_no_latch_witness :
    (([] : List Nat).length ≤ 0)
    ∧ read (⟨[Except.error 7], [], 0⟩ : ParDecompressor Nat) 1 =
        (Except.error 7, ⟨[], [], 0⟩) :=
  ⟨by decide, read_error_verbatim_no_latch 7 [] [] 0 1 (by decide)⟩

theorem fillCount_pos {ε : Type} (t : List (Except ε (List Nat))) :
    1 ≤ fillCount t := by
  induction t with
  | nil => simp [fillCount]
  | cons m rest ih =>
      cases m with
      | ok c => by_cases hc : c = [] <;> simp [fillCount, hc]
      | error e => simp [fillCount]

/-- Claim C9: if the consumer drops its receive handle after accepting `k`
messages, the worker delivers exactly the first `k` messages of the normal
run (so the failed send generates no error message and loses nothing that
was received) and performs at most `k + 1` fills: the fill whose send failed
is the last work it attempts, after which the (total, hence terminating)
worker exits silently. -/
theorem worker_exits_on_disconnect (k : Nat) (t : List (Except Nat (List Nat))) :
    workerDisc k t = ((workerRun t).take k, min (fillCount t) (k + 1)) := by
  induction t generalizing k with
  | nil =>
      simp [workerDisc, workerRun, fillCount]
  | cons m rest ih =>
      cases m with
      | error e =>
          cases k with
          | zero => simp [workerDisc, workerRun, fillCount]
          | succ k =>
              simp [workerDisc, workerRun, fillCount, ih k]
              omega
      | ok c =>
          by_cases hc : c = []
          · subst hc
            cases k with
            | zero => simp [workerDisc, workerRun, fillCount]
            | succ k => simp [workerDisc, workerRun, fillCount]
          · cases k with
            | zero => simp [workerDisc, workerRun, fillCount, hc]
            | succ k =>
                simp [workerDisc, workerRun, fillCount, hc, ih k]
                omega

theorem workerRun_map_ok (chunks : List (List Nat))
    (h : ∀ c ∈ chunks, c ≠ []) :
    workerRun (chunks.map (Except.ok : List Nat → Except Nat (List Nat))) =
      chunks.map Except.ok := by
  induction chunks with
  | nil => rfl
  | cons c rest ih =>
      have hc : c ≠ [] := h c (by simp)
      simp [workerRun, hc, ih fun j hj => h j (by simp [hj])]

theorem syncReadToEnd_map_ok (chunks : List (List Nat))
    (h : ∀ c ∈ chunks, c ≠ []) :
    syncReadToEnd (chunks.map (Except.ok : List Nat → Except Nat (List Nat))) =
      Except.ok chunks.flatten := by
  induction chunks with
  | nil => rfl
  | cons c rest ih =>
      have hc : c ≠ [] := h c (by simp)
      simp [syncReadToEnd, hc, ih fun j hj => h j (by simp [hj]), Except.map]

theorem readAll_drain {ε : Type} (fuel : Nat) :
    ∀ (n : Nat) (st : ParDecompressor ε), 1 ≤ n → MsgsOk st.r_decompressed →
      st.buf.length - st.pos + chanBytes st.r_decompressed +
        st.r_decompressed.length < fuel →
      readAll fuel n st = some (st.buf.drop st.pos ++ chanFlat st.r_decompressed) := by
  induction fuel with
  | zero =>
      intro n st _ _ hm
      omega
  | succ fuel ih =>
      intro n st hn hok hm
      rcases st with ⟨msgs, b, p⟩
      simp only at hok hm
      by_cases hp : b.length ≤ p
      · have hd : b.drop p = [] := List.drop_eq_nil_of_le hp
        cases msgs with
        | nil =>
            simp [readAll, read, hp, chanFlat, hd]
        | cons m rest =>
            obtain ⟨c, rfl, hc⟩ := hok m (by simp)
            have hc1 : 1 ≤ c.length := by
              cases c with
              | nil => exact absurd rfl hc
              | cons a t => simp
            have hl1 : 1 ≤ min n c.length := le_min hn hc1
            have hminc : min n c.length ≤ c.length := Nat.min_le_right n c.length
            have hbytes : c.take (min n c.length) ≠ [] := by
              intro h0
              have h1 : (c.take (min n c.length)).length = 0 := by rw [h0]; rfl
              rw [List.length_take] at h1
              omega
            have hok' : MsgsOk rest := fun x hx => hok x (by simp [hx])
            have hcb : chanBytes (Except.ok c :: rest) =
                c.length + chanBytes rest := by
              simp [chanBytes, msgChunk]
            have hcl : (Except.ok c :: rest).length = rest.length + 1 := by simp
            rw [hcb, hcl] at hm
            have hmeas : c.length - min n c.length + chanBytes rest +
                rest.length < fuel := by omega
            have hrec := ih n ⟨rest, c, min n c.length⟩ hn hok' (by simpa using hmeas)
            have hstep : readAll (fuel + 1) n
                (⟨Except.ok c :: rest, b, p⟩ : ParDecompressor ε) =
                (readAll fuel n ⟨rest, c, min n c.length⟩).map
                  (fun t => c.take (min n c.length) ++ t) := by
              simp only [readAll, read, if_pos hp]
              rw [if_neg hbytes]
            have hjoin : List.take (min n c.length) c ++
                (List.drop (min n c.length) c ++ chanFlat rest) =
                c ++ chanFlat rest := by
              rw [← List.append_assoc, List.take_append_drop]
            rw [hstep, hrec]
            simp only at hrec ⊢
            rw [Option.map_some']
            simp only [hd, List.nil_append, hjoin]
            simp [chanFlat, msgChunk]
      · push_neg at hp
        have hp' : ¬ b.length ≤ p := not_le.2 hp
        have hl1 : 1 ≤ min n (b.length - p) := le_min hn (by omega)
        have hlen2 : min n (b.length - p) ≤ b.length - p := Nat.min_le_right _ _
        have hbytes : (b.drop p).take (min n (b.length - p)) ≠ [] := by
          intro h0
          have h1 : ((b.drop p).take (min n (b.length - p))).length = 0 := by
            rw [h0]; rfl
          rw [List.length_take, List.length_drop] at h1
          omega
        have hmeas : b.length - (p + min n (b.length - p)) + chanBytes msgs +
            msgs.length < fuel := by omega
        have hrec := ih n ⟨msgs, b, p + min n (b.length - p)⟩ hn hok
          (by simpa using hmeas)
        have hstep : readAll (fuel + 1) n
            (⟨msgs, b, p⟩ : ParDecompressor ε) =
            (readAll fuel n ⟨msgs, b, p + min n (b.length - p)⟩).map
              (fun t => (b.drop p).take (min n (b.length - p)) ++ t) := by
          simp only [readAll, read, if_neg hp']
          rw [if_neg hbytes]
        have hdd : b.drop (p + min n (b.length - p)) =
            (b.drop p).drop (min n (b.length - p)) := by
          rw [List.drop_drop]
        have hjoin : (b.drop p).take (min n (b.length - p)) ++
            ((b.drop p).drop (min n (b.length - p)) ++ chanFlat msgs) =
            b.drop p ++ chanFlat msgs := by
          rw [← List.append_assoc, List.take_append_drop]
        rw [hstep, hrec]
        simp only at hrec ⊢
        rw [Option.map_some']
        simp only [hdd, hjoin]

theorem chanFlat_map_ok (chunks : List (List Nat)) :
    chanFlat (chunks.map (Except.ok : List Nat → Except Nat (List Nat))) =
      chunks.flatten := by
  induction chunks with
  | nil => rfl
  | cons c rest ih => simp [chanFlat, msgChunk] at ih ⊢; simp [ih]

theorem chanBytes_map_ok (chunks : List (List Nat)) :
    chanBytes (chunks.map (Except.ok : List Nat → Except Nat (List Nat))) =
      totalLen chunks := by
  induction chunks with
  | nil => rfl
  | cons c rest ih => simp [chanBytes, msgChunk, totalLen] at ih ⊢; simp [ih]

/-- Claim C8: for every division of the decoded stream into arbitrarily
sized nonempty `fill_buf` chunks (however the compressed input trickles in),
reading the parallel bridge to completion — the consumer draining, with
destination buffers of any positive size `n`, the messages the worker
produced — yields exactly the same bytes in the same order as reading the
synchronous `decompress_as` path to completion over the same decoder. -/
theorem parallel_matches_sync (chunks : List (List Nat)) (n fuel : Nat)
    (hne : ∀ c ∈ chunks, c ≠ []) (hn : 1 ≤ n)
    (hfuel : totalLen chunks + chunks.length < fuel) :
    readAll fuel n
        (⟨workerRun (chunks.map (Except.ok : List Nat → Except Nat (List Nat))),
          [], 0⟩ : ParDecompressor Nat) = some chunks.flatten
    ∧ syncReadToEnd (chunks.map (Except.ok : List Nat → Except Nat (List Nat))) =
        Except.ok chunks.flatten := by
  constructor
  · rw [workerRun_map_ok chunks hne]
    have hok : MsgsOk (chunks.map (Except.ok : List Nat → Except Nat (List Nat))) := by
      intro m hm
      simp only [List.mem_map] at hm
      obtain ⟨c, hc, rfl⟩ := hm
      exact ⟨c, rfl, hne c hc⟩
    have := readAll_drain fuel n
      ⟨chunks.map (Except.ok : List Nat → Except Nat (List Nat)), [], 0⟩ hn hok
      (by simpa [chanBytes_map_ok] using hfuel)
    simpa [chanFlat_map_ok] using this
  · exact syncReadToEnd_map_ok chunks hne

theorem parallel_matches_sync_witness :
    (∀ c ∈ ([[1, 2], [3]] : List (List Nat)), c ≠ [])
    ∧ totalLen [[1, 2], [3]] + ([[1, 2], [3]] : List (List Nat)).length < 6
    ∧ readAll 6 1
        (⟨workerRun (([[1, 2], [3]] : List (List Nat)).map
            (Except.ok : List Nat → Except Nat (List Nat))), [], 0⟩ :
          ParDecompressor Nat) = some ([[1, 2], [3]] : List (List Nat)).flatten
    ∧ syncReadToEnd (([[1, 2], [3]] : List (List Nat)).map
        (Except.ok : List Nat → Except Nat (List Nat))) =
        Except.ok ([[1, 2], [3]] : List (List Nat)).flatten := by
  have h := parallel_matches_sync [[1, 2], [3]] 1 6 (by decide) (by decide) (by decide)
  exact ⟨by decide, by decide, h.1, h.2⟩

theorem pipePump (j : Nat) (t : List (Except Nat (List Nat))) :
    ∀ ch : List (Except Nat (List Nat)),
      PipeReach
        (⟨List.replicate j (Except.ok [1]) ++ t, ch, false, [], 0⟩ : PipeState Nat)
        ⟨t, ch ++ List.replicate j (Except.ok [1]), false, [], 0⟩ := by
  induction j with
  | zero => intro ch; simpa using Relation.ReflTransGen.refl
  | succ j ih =>
      intro ch
      have hstep : PipeStep
          (⟨List.replicate (j + 1) (Except.ok [1]) ++ t, ch, false, [], 0⟩ :
            PipeState Nat)
          ⟨List.replicate j (Except.ok [1]) ++ t, ch ++ [Except.ok [1]],
            false, [], 0⟩ := by
        have hr : List.replicate (j + 1) (Except.ok [1] : Except Nat (List Nat)) ++ t =
            Except.ok [1] :: (List.replicate j (Except.ok [1]) ++ t) := by
          simp [List.replicate_succ]
        rw [hr]
        exact PipeStep.sendChunk [1] _ ch [] 0 (by simp)
      have hrest := Relation.ReflTransGen.head hstep (ih (ch ++ [Except.ok [1]]))
      simpa [List.append_assoc, List.replicate_succ] using hrest

theorem pipePumpAll (j : Nat) :
    PipeReach
      (initPipe (List.replicate j (Except.ok [1]) : List (Except Nat (List Nat))))
      ⟨[], List.replicate j (Except.ok [1]), false, [], 0⟩ := by
  simpa [initPipe] using pipePump j [] []

/-- Claim C1 counterexample / negation: there is no fixed bound on the
number of chunk messages buffered in the channel: for every candidate bound
`B` some pipeline run reaches a state with `B + 1` buffered messages
(`std::sync::mpsc::channel()` is unbounded, and every worker send succeeds
immediately no matter how full the channel is). -/
theorem channel_no_fixed_bound :
    ¬ ∃ B : Nat, ∀ (t : List (Except Nat (List Nat))) (s : PipeState Nat),
        PipeReach (initPipe t) s → s.chan.length ≤ B := by
  rintro ⟨B, hB⟩
  have h := hB (List.replicate (B + 1) (Except.ok [1]))
    ⟨[], List.replicate (B + 1) (Except.ok [1]), false, [], 0⟩
    (pipePumpAll (B + 1))
  rw [List.length_replicate] at h
  omega

/-- Claim C1 amended: the channel created by `ParDecompressor::new` is
unbounded: for every `n` the pipeline reaches a state in which more than `n`
chunk messages are buffered in the channel — the producer's sends always
succeed immediately instead of blocking — while no message is dropped: the
buffered channel content is exactly the sequence of sent chunks, in order. -/
theorem channel_unbounded_growth (n : Nat) :
    ∃ s : PipeState Nat,
      PipeReach (initPipe (List.replicate (n + 1) (Except.ok [1]))) s
      ∧ n < s.chan.length
      ∧ s.chan = List.replicate (n + 1) (Except.ok [1]) :=
  ⟨⟨[], List.replicate (n + 1) (Except.ok [1]), false, [], 0⟩,
   pipePumpAll (n + 1), by simp, rfl⟩

end Audec
